import Mathlib

set_option autoImplicit false

/-!
Verification development for the TorForge traffic-classification and
name-resolution core: a shallow embedding of the glob compiler, the bypass
classification engine, the GeoIP country matcher, the FakeDNS synthetic
address allocator, and the DNS-over-Tor resolver handlers, together with
theorems about their behaviour.

Strings are manipulated at the level of their character lists (`String.data`);
case folding is modelled on the ASCII range, which agrees with the source's
Unicode folding on every ASCII domain name considered here.
-/

namespace TorForge

/-! ### Glob compiler (`bypass.compileGlobToRegex`)

The source builds a Go regular expression `^ … $` from a glob pattern:
`*` becomes `.*`, `?` becomes `.`, and every other character is emitted
literally (regex metacharacters are backslash-escaped, which makes them
literal).  We embed the compiled regex as a token list: semantically the
escaping only matters for regex syntax, so each pattern character maps to
`star`, `qmark`, or a literal. -/

inductive GTok where
  | star
  | qmark
  | lit (c : Char)
deriving DecidableEq, Repr

/-- Embedding of `compileGlobToRegex` (src/unnamed/part_002:343-366): each
pattern character becomes one regex token; `*` ↦ `.*`, `?` ↦ `.`, anything
else (after escaping) a literal. -/
def compileGlobToRegex (pattern : List Char) : List GTok :=
  pattern.map fun c =>
    if c = '*' then GTok.star
    else if c = '?' then GTok.qmark
    else GTok.lit c

/-- The suffixes of `s` obtainable by letting `.*` consume a prefix: Go
regexp `.` does not match a newline (the source compiles the pattern
without the `s` flag), so consumption stops at the first newline. -/
def starSuffixes : List Char → List (List Char)
  | [] => [[]]
  | c :: rest => (c :: rest) :: (if c = '\n' then [] else starSuffixes rest)

/-- Anchored matching of the compiled token list against an input string,
embedding Go regexp semantics for `^ … $`: `.*` matches any run of
non-newline characters (every split is tried), `.` exactly one non-newline
character, and a literal itself. -/
def gtokMatch : List GTok → List Char → Bool
  | [], s => s.isEmpty
  | GTok.star :: p, s => (starSuffixes s).any fun s2 => gtokMatch p s2
  | GTok.qmark :: _, [] => false
  | GTok.qmark :: p, c :: s => decide (c ≠ '\n') && gtokMatch p s
  | GTok.lit _ :: _, [] => false
  | GTok.lit c :: p, c2 :: s => c == c2 && gtokMatch p s

/-! ### The resolver's own suffix matcher (`netfilter.matchDomain`) -/

/-- Embedding of `matchDomain` (src/internal/netfilter/dns.go:152-160): a
pattern beginning `*.` matches any domain ending in the pattern minus the
leading `*` (`pattern[1:]`), or equal to the pattern minus the leading `*.`
(`pattern[2:]`); any other pattern matches only itself. -/
def matchDomainChars (pattern domain : List Char) : Bool :=
  match pattern with
  | '*' :: '.' :: rest => ('.' :: rest).isSuffixOf domain || domain == rest
  | _ => pattern == domain

/-! ### String helpers -/

/-- ASCII case folding, as `strings.ToLower` acts on the ASCII range (the
source's Unicode folding agrees with this on ASCII domain names). -/
def lowerChar (c : Char) : Char :=
  if 'A' ≤ c ∧ c ≤ 'Z' then Char.ofNat (c.toNat + 32) else c

/-- Embedding of `dns.CanonicalName`: append a trailing dot unless one is
already present (`dns.Fqdn`; the upstream library's escaped-dot handling is
omitted, the domains considered contain no backslashes), then lowercase. -/
def canonChars (l : List Char) : List Char :=
  (match l.getLast? with
   | some '.' => l
   | _ => l ++ ['.']).map lowerChar

def canonicalName (s : String) : String :=
  String.mk (canonChars s.data)

/-- `strings.TrimSuffix(name, ".")`: drop one trailing dot if present. -/
def trimDot (s : String) : String :=
  match s.data.getLast? with
  | some '.' => String.mk s.data.dropLast
  | _ => s

/-- First-match association-list lookup; models a Go map read (duplicate
keys never arise for reads because writes either check for absence first or
overwrite, which prepending models: the newest entry is found first). -/
def lookupAssoc {α β : Type} [BEq α] (l : List (α × β)) (k : α) : Option β :=
  (l.find? fun p => p.1 == k).map Prod.snd

/-- Canonical decimal rendering of a natural number, as `strconv` renders
the bytes of an address in `net.IP.String()`. -/
def natChars (n : Nat) : List Char :=
  if n < 10 then [Nat.digitChar n]
  else natChars (n / 10) ++ [Nat.digitChar (n % 10)]
decreasing_by exact Nat.div_lt_self (by omega) (by omega)

/-- Joining parts with literal dots. -/
def dotJoin : List (List Char) → List Char
  | [] => []
  | [p] => p
  | p :: ps => p ++ '.' :: dotJoin ps

/-- `net.IP.String()` for the 4-byte addresses the allocator produces:
dotted canonical decimal. -/
def ipStringChars (ip : List Nat) : List Char :=
  dotJoin (ip.map natChars)

/-! ### Synthetic address allocator (src/internal/netfilter/fakedns.go) -/

/-- Embedding of `incrementIP` working on the reversed byte list: each byte
is incremented modulo 256 (Go `byte` arithmetic wraps) and the carry ripples
while the incremented byte is zero. -/
def incRevBytes : List Nat → List Nat
  | [] => []
  | b :: rest =>
      if (b + 1) % 256 = 0 then (b + 1) % 256 :: incRevBytes rest
      else (b + 1) % 256 :: rest

/-- `incrementIP` (src/internal/netfilter/fakedns.go:215-223): ripple-carry
increment from the last byte. -/
def incrementIP (ip : List Nat) : List Nat :=
  (incRevBytes ip.reverse).reverse

/-- `FakeDNSServer` state: forward map (canonical domain → fake IP), reverse
map (the IP's `String()` form → domain), and the allocation cursor.  The
listener fields are not modelled. -/
structure FakeDNSServer where
  mappings : List (String × List Nat)
  reverseMaps : List (List Char × String)
  nextIP : List Nat
deriving DecidableEq, Repr

/-- `NewFakeDNSServer` after the subnet has parsed to the given base
address: the cursor starts at the first host address (base incremented
once), both maps empty. -/
def mkFakeDNS (base : List Nat) : FakeDNSServer :=
  { mappings := [], reverseMaps := [], nextIP := incrementIP base }

/-- `getFakeIP` (src/internal/netfilter/fakedns.go:150-174): canonicalize,
return the existing mapping if present, otherwise allocate the cursor
address, record forward and reverse entries, and advance the cursor. -/
def FakeDNSServer.getFakeIP (f : FakeDNSServer) (domain : String) :
    FakeDNSServer × List Nat :=
  let d := canonicalName domain
  match lookupAssoc f.mappings d with
  | some ip => (f, ip)
  | none =>
      let fakeIP := f.nextIP
      ({ mappings := (d, fakeIP) :: f.mappings,
         reverseMaps := (ipStringChars fakeIP, d) :: f.reverseMaps,
         nextIP := incrementIP f.nextIP }, fakeIP)

/-- `GetDomainForIP` (src/internal/netfilter/fakedns.go:190-195): reverse
lookup keyed by `ip.String()`; a Go map miss yields the zero value `""`. -/
def FakeDNSServer.GetDomainForIP (f : FakeDNSServer) (ip : List Nat) : String :=
  (lookupAssoc f.reverseMaps (ipStringChars ip)).getD ""

/-- `GetMappingCount` (src/internal/netfilter/fakedns.go:202-207). -/
def FakeDNSServer.GetMappingCount (f : FakeDNSServer) : Nat :=
  f.mappings.length

/-- `splitDNSName` (src/internal/netfilter/fakedns.go:250-267): split on
dots, skipping empty segments; `acc` holds the current segment reversed. -/
def splitDNSNameGo (acc : List Char) : List Char → List (List Char)
  | [] => if acc.isEmpty then [] else [acc.reverse]
  | c :: rest =>
      if c = '.' then
        if acc.isEmpty then splitDNSNameGo [] rest
        else acc.reverse :: splitDNSNameGo [] rest
      else splitDNSNameGo (c :: acc) rest

def splitDNSName (s : List Char) : List (List Char) :=
  splitDNSNameGo [] s

/-- `ptrToIP` (src/internal/netfilter/fakedns.go:225-248): canonicalize,
require the `.in-addr.arpa.` suffix, split the remainder into exactly four
labels and rejoin them reversed; malformed input yields the empty string
(here `[]`). -/
def ptrToIPChars (ptr : List Char) : List Char :=
  let p := canonChars ptr
  if p.length < 14 then []
  else if p.drop (p.length - 14) ≠ ".in-addr.arpa.".data then []
  else
    match splitDNSName (p.take (p.length - 14)) with
    | [a, b, c, d] => dotJoin [d, c, b, a]
    | _ => []

/-- `getReverseDomain` (src/internal/netfilter/fakedns.go:176-188). -/
def FakeDNSServer.getReverseDomain (f : FakeDNSServer) (ptrName : String) : String :=
  let ip := ptrToIPChars ptrName.data
  if ip = [] then ""
  else (lookupAssoc f.reverseMaps ip).getD ""

/-! ### GeoIP country matcher (src/unnamed/part_001)

The Go methods have a pointer receiver that may be `nil` (construction
returns `nil, nil` when no database file is found), so every operation here
takes an `Option GeoIPMatcher`.  Methods that begin with a `g == nil` check
are total on `none`; `AddCountry`/`RemoveCountry` have no such check and
dereference the receiver, so on `none` they panic — modelled by an `Option`
result where `none` is the panic. -/

/-- The opened geolocation database, at its interface: a country lookup
(`none` models a lookup error) and the close result. -/
structure GeoDB where
  countryOf : List Nat → Option String
  closeErr : Option String

structure GeoIPMatcher where
  db : Option GeoDB
  countries : List String

/-- The disabled matcher `NewGeoIPMatcher` produces when no database is
found (src/unnamed/part_001:40-43): the nil pointer, with nil error. -/
def newGeoIPMatcherNoDatabase : Option GeoIPMatcher × Option String :=
  (none, none)

/-- `Match` (src/unnamed/part_001:67-87): nil-safe; resolves the country
and reports membership in the configured set. -/
def GeoIPMatcher.Match (g : Option GeoIPMatcher) (ip : List Nat) : String × Bool :=
  match g with
  | none => ("", false)
  | some m =>
      match m.db with
      | none => ("", false)
      | some db =>
          match db.countryOf ip with
          | none => ("", false)
          | some iso => if m.countries.contains iso then (iso, true) else ("", false)

/-- `GetCountry` (src/unnamed/part_001:89-104): nil-safe; resolved code or
empty on error. -/
def GeoIPMatcher.GetCountry (g : Option GeoIPMatcher) (ip : List Nat) : String :=
  match g with
  | none => ""
  | some m =>
      match m.db with
      | none => ""
      | some db => (db.countryOf ip).getD ""

/-- `AddCountry` (src/unnamed/part_001:106-111): no nil check — on the nil
receiver the method dereferences it and panics (`none` result); otherwise
the country set gains the code (a Go map write, idempotent). -/
def GeoIPMatcher.AddCountry (g : Option GeoIPMatcher) (code : String) :
    Option (Option GeoIPMatcher) :=
  match g with
  | none => none
  | some m =>
      some (some { m with
        countries := if m.countries.contains code then m.countries else code :: m.countries })

/-- `RemoveCountry` (src/unnamed/part_001:113-118): no nil check — panics on
the nil receiver; otherwise deletes the code from the set. -/
def GeoIPMatcher.RemoveCountry (g : Option GeoIPMatcher) (code : String) :
    Option (Option GeoIPMatcher) :=
  match g with
  | none => none
  | some m => some (some { m with countries := m.countries.filter fun c => c ≠ code })

/-- `Close` (src/unnamed/part_001:120-126): nil-safe; closes the database
when one is open. -/
def GeoIPMatcher.Close (g : Option GeoIPMatcher) : Option String :=
  match g with
  | none => none
  | some m =>
      match m.db with
      | none => none
      | some db => db.closeErr

/-! ### Classification engine (src/unnamed/part_002) -/

/-- The untyped `compiled interface{}` slot of a rule, as far as
`MatchDomain` can observe it: either a compiled regex or anything else (a
compiled CIDR, or nothing) — the type assertion in the match loop only
distinguishes these two cases. -/
inductive RuleCompiled where
  | re (toks : List GTok)
  | other
deriving DecidableEq

/-- `Rule` (src/unnamed/part_002:27-35); `RuleType` and `Action` are string
types in the source. -/
structure Rule where
  name : String
  type : String
  pattern : String
  action : String
  description : String
  compiled : RuleCompiled
deriving DecidableEq

def ruleTypeDomain : String := "domain"
def actionBypass : String := "bypass"

/-- The engine state `MatchDomain` reads: the `cfg.Enabled` flag, the
configuration-level compiled domain patterns in their original order, and
the custom rules in order. -/
structure Engine where
  enabled : Bool
  domainPatterns : List (List GTok)
  customRules : List Rule

/-- `MatchResult` (src/unnamed/part_002:58-64); the diagnostic `Reason`
string is not modelled. -/
structure MatchResult where
  matched : Bool
  rule : Option Rule
  action : String
deriving DecidableEq

/-- `MatchDomain` (src/unnamed/part_002:169-207): disabled engines match
nothing; otherwise lowercase the domain, scan the configuration patterns in
order (first hit wins with action `bypass`), then the custom rules in order
(a rule participates when its type is `domain` and its compiled slot holds
a regex; first hit wins with the rule's action). -/
def Engine.MatchDomain (e : Engine) (domain : String) : MatchResult :=
  if !e.enabled then { matched := false, rule := none, action := "" }
  else
    let d := String.mk (domain.data.map lowerChar)
    match e.domainPatterns.find? (fun re => gtokMatch re d.data) with
    | some _ => { matched := true, rule := none, action := actionBypass }
    | none =>
        match e.customRules.find? (fun r =>
            r.type == ruleTypeDomain &&
              (match r.compiled with
               | RuleCompiled.re t => gtokMatch t d.data
               | RuleCompiled.other => false)) with
        | some r => { matched := true, rule := some r, action := r.action }
        | none => { matched := false, rule := none, action := "" }

/-! ### DNS messages (the miekg/dns surface the handlers use) -/

structure DNSQuestion where
  qname : String
  qtype : Nat
deriving DecidableEq

inductive DNSAnswer where
  | A (name : String) (ttl : Nat) (ip : List Nat)
  | PTR (name : String) (ttl : Nat) (target : String)
deriving DecidableEq

structure DNSMsg where
  id : Nat
  rcode : Nat
  question : List DNSQuestion
  answer : List DNSAnswer
deriving DecidableEq

def rcodeSuccess : Nat := 0
def rcodeServerFailure : Nat := 2
def rcodeNameError : Nat := 3

def qtypeA : Nat := 1
def qtypePTR : Nat := 12
def qtypeAAAA : Nat := 28

/-- `Msg.SetReply`: reply with the request id, success code, the first
question copied, and no answers yet. -/
def setReply (req : DNSMsg) : DNSMsg :=
  { id := req.id, rcode := rcodeSuccess, question := req.question.take 1, answer := [] }

/-- `Msg.SetRcode` = `SetReply` plus the given response code. -/
def setRcode (req : DNSMsg) (rc : Nat) : DNSMsg :=
  { setReply req with rcode := rc }

/-- `dns.HandleFailed`: write `SetRcode(req, RcodeServerFailure)`. -/
def handleFailedMsg (req : DNSMsg) : DNSMsg :=
  setRcode req rcodeServerFailure

/-! ### FakeDNS network handler (src/internal/netfilter/fakedns.go:102-148) -/

/-- One pass of the question loop: `A` questions allocate and answer a fake
address, `AAAA` deliberately answers nothing, `PTR` answers the mapped
domain when the reverse name decodes and is known, anything else answers
nothing. -/
def FakeDNSServer.processQuestion (f : FakeDNSServer) (ttl : Nat) (q : DNSQuestion) :
    FakeDNSServer × List DNSAnswer :=
  if q.qtype = qtypeA then
    let r := f.getFakeIP q.qname
    (r.1, [DNSAnswer.A q.qname ttl r.2])
  else if q.qtype = qtypeAAAA then (f, [])
  else if q.qtype = qtypePTR then
    let domain := f.getReverseDomain q.qname
    if domain ≠ "" then (f, [DNSAnswer.PTR q.qname ttl domain]) else (f, [])
  else (f, [])

def FakeDNSServer.processQuestions (f : FakeDNSServer) (ttl : Nat) :
    List DNSQuestion → FakeDNSServer × List DNSAnswer
  | [] => (f, [])
  | q :: qs =>
      let r := f.processQuestion ttl q
      let rest := r.1.processQuestions ttl qs
      (rest.1, r.2 ++ rest.2)

/-- The FakeDNS handler: `SetReply` (success code), then the question loop
appends answers; the reply is always written. -/
def FakeDNSServer.handleDNS (f : FakeDNSServer) (ttl : Nat) (r : DNSMsg) :
    DNSMsg × FakeDNSServer :=
  let m := setReply r
  let res := f.processQuestions ttl r.question
  ({ m with answer := res.2 }, res.1)

/-! ### DNS-over-Tor resolver (src/internal/netfilter/dns.go)

The network exchanges the resolver performs are oracles supplied per query:
`none` models a timeout or transport error of `client.Exchange`.  Each
handler result carries, besides the written reply and the updated cache,
the list of upstreams the resolver actually contacted, in order. -/

structure BypassDNSConfig where
  enabled : Bool
  domains : List String

structure DNSCacheEntry where
  response : DNSMsg
  timestamp : Nat
deriving DecidableEq

/-- The resolver cache, keyed by `(domain, qtype)` (the source renders the
key as `domain:qtype`, an injective encoding of the pair). -/
structure DNSCache where
  entries : List ((String × Nat) × DNSCacheEntry)
  maxAge : Nat
deriving DecidableEq

def DNSCache.get (c : DNSCache) (domain : String) (qtype : Nat) (now : Nat) :
    Option DNSMsg :=
  match lookupAssoc c.entries (domain, qtype) with
  | none => none
  | some e => if now - e.timestamp > c.maxAge then none else some e.response

def DNSCache.set (c : DNSCache) (domain : String) (qtype : Nat) (msg : DNSMsg)
    (now : Nat) : DNSCache :=
  { c with entries := ((domain, qtype), { response := msg, timestamp := now }) :: c.entries }

structure DNSResolver where
  bypassCfg : Option BypassDNSConfig
  cache : DNSCache

inductive Upstream where
  | torUpstream
  | systemdResolver
  | loopbackResolver
deriving DecidableEq, Repr

structure DNSEnv where
  torExchange : DNSMsg → Option DNSMsg
  systemdExchange : DNSMsg → Option DNSMsg
  loopbackExchange : DNSMsg → Option DNSMsg

/-- `shouldBypass` (src/internal/netfilter/dns.go:138-150). -/
def DNSResolver.shouldBypass (r : DNSResolver) (domain : String) : Bool :=
  match r.bypassCfg with
  | none => false
  | some cfg =>
      cfg.enabled && cfg.domains.any fun pat => matchDomainChars pat.data domain.data

/-- `resolveTor` (src/internal/netfilter/dns.go:162-188): one exchange with
the Tor DNS port; on failure reply SERVFAIL, on success cache successful
responses and relay the answer. -/
def DNSResolver.resolveTor (r : DNSResolver) (env : DNSEnv) (now : Nat)
    (req : DNSMsg) (domain : String) : DNSMsg × List Upstream × DNSCache :=
  match env.torExchange req with
  | none => (setRcode req rcodeServerFailure, [Upstream.torUpstream], r.cache)
  | some resp =>
      (resp, [Upstream.torUpstream],
        if resp.rcode = rcodeSuccess then
          r.cache.set domain ((req.question.headD { qname := "", qtype := 0 }).qtype) resp now
        else r.cache)

/-- `resolveBypass` (src/internal/netfilter/dns.go:190-218): try the system
resolver, then the loopback resolver, and on total failure reply NXDOMAIN. -/
def DNSResolver.resolveBypass (r : DNSResolver) (env : DNSEnv) (req : DNSMsg) :
    DNSMsg × List Upstream × DNSCache :=
  match env.systemdExchange req with
  | some resp => (resp, [Upstream.systemdResolver], r.cache)
  | none =>
      match env.loopbackExchange req with
      | some resp => (resp, [Upstream.systemdResolver, Upstream.loopbackResolver], r.cache)
      | none =>
          (setRcode req rcodeNameError,
           [Upstream.systemdResolver, Upstream.loopbackResolver], r.cache)

/-- `handleDNS` (src/internal/netfilter/dns.go:103-136): question-less
messages get `dns.HandleFailed`; otherwise bypass check, then cache (a hit
is replayed with the request id), then the Tor path. -/
def DNSResolver.handleDNS (r : DNSResolver) (env : DNSEnv) (now : Nat)
    (req : DNSMsg) : DNSMsg × List Upstream × DNSCache :=
  match req.question with
  | [] => (handleFailedMsg req, [], r.cache)
  | q :: _ =>
      let domain := trimDot q.qname
      if r.shouldBypass domain then r.resolveBypass env req
      else
        match r.cache.get domain q.qtype now with
        | some cached => ({ cached with id := req.id }, [], r.cache)
        | none => r.resolveTor env now req domain

/-! ### Association-list lookup lemmas -/

theorem lookupAssoc_nil {α β : Type} [BEq α] (k : α) :
    lookupAssoc ([] : List (α × β)) k = none := rfl

theorem lookupAssoc_cons {α β : Type} [BEq α] (a : α) (b : β) (l : List (α × β)) (k : α) :
    lookupAssoc ((a, b) :: l) k = if a == k then some b else lookupAssoc l k := by
  by_cases h : a == k <;> simp [lookupAssoc, List.find?_cons, h]

/-- A successful allocation run: fold `getFakeIP` over a list of queried
domains, keeping the state. -/
def runFrom (f : FakeDNSServer) (calls : List String) : FakeDNSServer :=
  calls.foldl (fun g d => (g.getFakeIP d).1) f

theorem getFakeIP_hit {f : FakeDNSServer} {d : String} {v : List Nat}
    (h : lookupAssoc f.mappings (canonicalName d) = some v) :
    f.getFakeIP d = (f, v) := by
  simp [FakeDNSServer.getFakeIP, h]

theorem getFakeIP_miss {f : FakeDNSServer} {d : String}
    (h : lookupAssoc f.mappings (canonicalName d) = none) :
    f.getFakeIP d =
      ({ mappings := (canonicalName d, f.nextIP) :: f.mappings,
         reverseMaps := (ipStringChars f.nextIP, canonicalName d) :: f.reverseMaps,
         nextIP := incrementIP f.nextIP }, f.nextIP) := by
  simp [FakeDNSServer.getFakeIP, h]

/-- A forward entry survives a `getFakeIP` call: allocation only prepends a
key that was absent. -/
theorem lookup_getFakeIP_persist {f : FakeDNSServer} {k : String} {v : List Nat}
    (h : lookupAssoc f.mappings k = some v) (d : String) :
    lookupAssoc ((f.getFakeIP d).1).mappings k = some v := by
  cases hd : lookupAssoc f.mappings (canonicalName d) with
  | some w => rw [getFakeIP_hit hd]; exact h
  | none =>
      rw [getFakeIP_miss hd]
      rw [lookupAssoc_cons]
      have hne : (canonicalName d == k) = false := by
        by_cases he : canonicalName d = k
        · subst he; rw [hd] at h; cases h
        · simp [he]
      simp [hne, h]

theorem lookup_runFrom_persist {f : FakeDNSServer} {k : String} {v : List Nat}
    (h : lookupAssoc f.mappings k = some v) (calls : List String) :
    lookupAssoc ((runFrom f calls).mappings) k = some v := by
  induction calls generalizing f with
  | nil => exact h
  | cons c cs ih => exact ih (lookup_getFakeIP_persist h c)

/-- After a `getFakeIP` call the canonical domain is mapped to the address
the call returned. -/
theorem lookup_after_getFakeIP (f : FakeDNSServer) (d : String) :
    lookupAssoc ((f.getFakeIP d).1).mappings (canonicalName d) = some (f.getFakeIP d).2 := by
  cases hd : lookupAssoc f.mappings (canonicalName d) with
  | some w => rw [getFakeIP_hit hd]; exact hd
  | none => rw [getFakeIP_miss hd]; simp [lookupAssoc_cons]

/-- C6: a repeated `getFakeIP` call — immediately or after any further
calls — returns the address of the first call and leaves the mapping count
unchanged; only the first call for a new canonical domain increments the
count. -/
theorem getFakeIP_idempotent_count (f : FakeDNSServer) (d : String) (calls : List String) :
    ((runFrom (f.getFakeIP d).1 calls).getFakeIP d).2 = (f.getFakeIP d).2
    ∧ ((runFrom (f.getFakeIP d).1 calls).getFakeIP d).1.GetMappingCount
        = (runFrom (f.getFakeIP d).1 calls).GetMappingCount
    ∧ (f.getFakeIP d).1.GetMappingCount
        = (if (lookupAssoc f.mappings (canonicalName d)).isSome
           then f.GetMappingCount else f.GetMappingCount + 1) := by
  have hl : lookupAssoc ((runFrom (f.getFakeIP d).1 calls).mappings) (canonicalName d)
      = some (f.getFakeIP d).2 :=
    lookup_runFrom_persist (lookup_after_getFakeIP f d) calls
  have hhit := getFakeIP_hit hl
  refine ⟨by rw [hhit], by rw [hhit], ?_⟩
  cases hd : lookupAssoc f.mappings (canonicalName d) with
  | some w => rw [getFakeIP_hit hd]; simp
  | none =>
      rw [getFakeIP_miss hd]
      simp [FakeDNSServer.GetMappingCount]

/-- C1: a non-bypass, non-cached query whose exchange with the Tor DNS
upstream fails is answered with SERVFAIL (under the request id), and the
only upstream contacted is the anonymizer's resolver. -/
theorem tor_failure_servfail (r : DNSResolver) (env : DNSEnv) (now : Nat)
    (req : DNSMsg) (q : DNSQuestion) (qs : List DNSQuestion)
    (hq : req.question = q :: qs)
    (hb : r.shouldBypass (trimDot q.qname) = false)
    (hc : r.cache.get (trimDot q.qname) q.qtype now = none)
    (ht : env.torExchange req = none) :
    (r.handleDNS env now req).1 = setRcode req rcodeServerFailure
    ∧ (r.handleDNS env now req).1.rcode = rcodeServerFailure
    ∧ (r.handleDNS env now req).1.id = req.id
    ∧ (r.handleDNS env now req).2.1 = [Upstream.torUpstream] := by
  simp only [DNSResolver.handleDNS, hq, hb, hc, DNSResolver.resolveTor, ht]
  simp [setRcode, setReply]

/-- C1 witness: a concrete non-bypass query against a dead Tor upstream. -/
theorem tor_failure_servfail_witness :
    let r : DNSResolver := { bypassCfg := none, cache := { entries := [], maxAge := 300 } }
    let env : DNSEnv :=
      { torExchange := fun _ => none, systemdExchange := fun _ => none,
        loopbackExchange := fun _ => none }
    let req : DNSMsg :=
      { id := 7, rcode := 0, question := [{ qname := "example.com.", qtype := 1 }], answer := [] }
    (r.handleDNS env 0 req).1 = setRcode req rcodeServerFailure
    ∧ (r.handleDNS env 0 req).1.rcode = rcodeServerFailure
    ∧ (r.handleDNS env 0 req).1.id = req.id
    ∧ (r.handleDNS env 0 req).2.1 = [Upstream.torUpstream] :=
  tor_failure_servfail _ _ 0 _ _ [] rfl rfl rfl rfl

/-- C3: a bypass-listed query for which both the system resolver and the
loopback retry fail is answered with NXDOMAIN, and the Tor upstream is
never contacted. -/
theorem bypass_total_failure_nxdomain (r : DNSResolver) (env : DNSEnv) (now : Nat)
    (req : DNSMsg) (q : DNSQuestion) (qs : List DNSQuestion)
    (hq : req.question = q :: qs)
    (hb : r.shouldBypass (trimDot q.qname) = true)
    (hs : env.systemdExchange req = none)
    (hl : env.loopbackExchange req = none) :
    (r.handleDNS env now req).1 = setRcode req rcodeNameError
    ∧ (r.handleDNS env now req).1.rcode = rcodeNameError
    ∧ (r.handleDNS env now req).1.id = req.id
    ∧ (r.handleDNS env now req).2.1 = [Upstream.systemdResolver, Upstream.loopbackResolver]
    ∧ Upstream.torUpstream ∉ (r.handleDNS env now req).2.1 := by
  simp only [DNSResolver.handleDNS, hq, hb, DNSResolver.resolveBypass, hs, hl]
  simp [setRcode, setReply]

/-- C3 witness: a concrete bypass-listed query with both local resolvers
dead. -/
theorem bypass_total_failure_nxdomain_witness :
    let r : DNSResolver :=
      { bypassCfg := some { enabled := true, domains := ["*.local"] },
        cache := { entries := [], maxAge := 300 } }
    let env : DNSEnv :=
      { torExchange := fun _ => none, systemdExchange := fun _ => none,
        loopbackExchange := fun _ => none }
    let req : DNSMsg :=
      { id := 3, rcode := 0, question := [{ qname := "printer.local.", qtype := 1 }], answer := [] }
    (r.handleDNS env 0 req).1 = setRcode req rcodeNameError
    ∧ (r.handleDNS env 0 req).1.rcode = rcodeNameError
    ∧ (r.handleDNS env 0 req).1.id = req.id
    ∧ (r.handleDNS env 0 req).2.1 = [Upstream.systemdResolver, Upstream.loopbackResolver]
    ∧ Upstream.torUpstream ∉ (r.handleDNS env 0 req).2.1 :=
  bypass_total_failure_nxdomain _ _ 0 _ _ [] rfl (by decide) rfl rfl

/-- C9 counterexample: the FakeDNS handler answers a question-less message
with a success-coded reply (`SetReply` sets `RcodeSuccess` and the question
loop is empty), not with a protocol-level failure — refuting the claim for
the FakeDNS handler. -/
theorem fakedns_questionless_success_reply :
    ((mkFakeDNS [198, 18, 0, 0]).handleDNS 60
        { id := 9, rcode := 0, question := [], answer := [] }).1.rcode = rcodeSuccess
    ∧ rcodeSuccess ≠ rcodeServerFailure := by
  exact ⟨rfl, by decide⟩

/-- C9 amended: a question-less inbound message is never dropped by either
handler; the Anonymized Resolver's handler replies with SERVFAIL
(`dns.HandleFailed`), while the FakeDNS handler replies with a
success-coded, empty-answer reply. -/
theorem questionless_handling (r : DNSResolver) (env : DNSEnv) (now : Nat)
    (req : DNSMsg) (hq : req.question = [])
    (f : FakeDNSServer) (ttl : Nat) :
    (r.handleDNS env now req).1 = setRcode req rcodeServerFailure
    ∧ (r.handleDNS env now req).1.rcode = rcodeServerFailure
    ∧ (f.handleDNS ttl req).1 = setReply req
    ∧ (f.handleDNS ttl req).1.rcode = rcodeSuccess := by
  refine ⟨?_, ?_, ?_, ?_⟩ <;>
    simp [DNSResolver.handleDNS, FakeDNSServer.handleDNS,
      FakeDNSServer.processQuestions, hq, handleFailedMsg, setRcode, setReply]

/-- C9 amended witness: a concrete question-less message through both
handlers. -/
theorem questionless_handling_witness :
    let r : DNSResolver := { bypassCfg := none, cache := { entries := [], maxAge := 300 } }
    let env : DNSEnv :=
      { torExchange := fun _ => none, systemdExchange := fun _ => none,
        loopbackExchange := fun _ => none }
    let req : DNSMsg := { id := 11, rcode := 0, question := [], answer := [] }
    (r.handleDNS env 0 req).1 = setRcode req rcodeServerFailure
    ∧ (r.handleDNS env 0 req).1.rcode = rcodeServerFailure
    ∧ ((mkFakeDNS [198, 18, 0, 0]).handleDNS 60 req).1 = setReply req
    ∧ ((mkFakeDNS [198, 18, 0, 0]).handleDNS 60 req).1.rcode = rcodeSuccess :=
  questionless_handling _ _ 0 _ rfl _ 60

/-- C8 counterexample: on the nil matcher that construction returns when no
geolocation database is found, `AddCountry` and `RemoveCountry` dereference
the nil receiver — the `none` result models the ensuing panic, refuting
"every operation … is defined and does not fail". -/
theorem addCountry_nil_matcher_panics :
    GeoIPMatcher.AddCountry newGeoIPMatcherNoDatabase.1 "US" = none
    ∧ GeoIPMatcher.RemoveCountry newGeoIPMatcherNoDatabase.1 "US" = none := by
  exact ⟨rfl, rfl⟩

/-- C8 amended: on the nil matcher produced when no database is found,
`Match`, `GetCountry` and `Close` are safe no-ops returning
no-match/empty/nil-error, but `AddCountry` and `RemoveCountry` panic; the
mutators are safe (and lookups still no-ops) only on a non-nil matcher
value, with or without a database. -/
theorem geoip_disabled_behaviour (ip : List Nat) (code : String) (m : GeoIPMatcher)
    (hdb : m.db = none) :
    GeoIPMatcher.Match newGeoIPMatcherNoDatabase.1 ip = ("", false)
    ∧ GeoIPMatcher.GetCountry newGeoIPMatcherNoDatabase.1 ip = ""
    ∧ GeoIPMatcher.Close newGeoIPMatcherNoDatabase.1 = none
    ∧ GeoIPMatcher.AddCountry newGeoIPMatcherNoDatabase.1 code = none
    ∧ GeoIPMatcher.RemoveCountry newGeoIPMatcherNoDatabase.1 code = none
    ∧ (GeoIPMatcher.AddCountry (some m) code).isSome = true
    ∧ (GeoIPMatcher.RemoveCountry (some m) code).isSome = true
    ∧ GeoIPMatcher.Match (some m) ip = ("", false)
    ∧ GeoIPMatcher.GetCountry (some m) ip = ""
    ∧ GeoIPMatcher.Close (some m) = none := by
  refine ⟨rfl, rfl, rfl, rfl, rfl, rfl, rfl, ?_, ?_, ?_⟩ <;>
    simp [GeoIPMatcher.Match, GeoIPMatcher.GetCountry, GeoIPMatcher.Close, hdb]

/-- C8 amended witness: the database-less matcher value used by the source's
own tests. -/
theorem geoip_disabled_behaviour_witness :
    ({ db := none, countries := ["US"] } : GeoIPMatcher).db = none
    ∧ GeoIPMatcher.Match newGeoIPMatcherNoDatabase.1 [8, 8, 8, 8] = ("", false)
    ∧ GeoIPMatcher.AddCountry newGeoIPMatcherNoDatabase.1 "US" = none
    ∧ (GeoIPMatcher.AddCountry (some { db := none, countries := ["US"] }) "US").isSome = true
    ∧ GeoIPMatcher.Match (some { db := none, countries := ["US"] }) [8, 8, 8, 8] = ("", false) := by
  have h := geoip_disabled_behaviour [8, 8, 8, 8] "US" { db := none, countries := ["US"] } rfl
  exact ⟨rfl, h.1, h.2.2.2.1, h.2.2.2.2.2.1, h.2.2.2.2.2.2.2.1⟩

/-! ### C2: `MatchDomain` against the specification's description -/

/-- Helper: `find?` over a filtered list merges the two predicates. -/
theorem find?_filter_eq {α : Type} (l : List α) (q p : α → Bool) :
    (l.filter q).find? p = l.find? fun x => q x && p x := by
  induction l with
  | nil => rfl
  | cons a l ih =>
      by_cases hq : q a
      · by_cases hp : p a <;> simp [List.filter_cons, List.find?_cons, hq, hp, ih]
      · simp [List.filter_cons, List.find?_cons, hq, ih]

/-- Helper: `find?` only depends on the predicate's values on the list. -/
theorem find?_congr_list {α : Type} {l : List α} {p q : α → Bool}
    (h : ∀ x ∈ l, p x = q x) : l.find? p = l.find? q := by
  induction l with
  | nil => rfl
  | cons a l ih =>
      have ha := h a (by simp)
      by_cases hp : p a
      · simp [List.find?_cons, hp, ha ▸ hp]
      · have hq : ¬ (q a = true) := by rw [← ha]; exact hp
        simp only [List.find?_cons]
        simp only [hp, hq, if_neg, Bool.false_eq_true, if_false]
        exact ih fun x hx => h x (by simp [hx])

/-- Reference definition, following the specification's words for
`MatchDomain`: disabled engines never match; otherwise lowercase the name,
evaluate the configuration-level compiled patterns in original order (first
match wins, action `bypass`), then the custom rules of type `domain` in
order (first match wins, with the rule's action), else no match. -/
def matchDomainSpec (e : Engine) (domain : String) : MatchResult :=
  if e.enabled = false then { matched := false, rule := none, action := "" }
  else
    let d := String.mk (domain.data.map lowerChar)
    match e.domainPatterns.find? (fun p => gtokMatch p d.data) with
    | some _ => { matched := true, rule := none, action := actionBypass }
    | none =>
        match (e.customRules.filter fun r => r.type == ruleTypeDomain).find?
            (fun r => gtokMatch (compileGlobToRegex r.pattern.data) d.data) with
        | some r => { matched := true, rule := some r, action := r.action }
        | none => { matched := false, rule := none, action := "" }

/-- C2: on every engine whose domain-type custom rules carry their compiled
glob (which is what rule compilation establishes), `MatchDomain` computes
exactly the specification's description, and a disabled engine never
matches. -/
theorem matchDomain_follows_spec (e : Engine) (domain : String)
    (hwf : ∀ r ∈ e.customRules, r.type = ruleTypeDomain →
        r.compiled = RuleCompiled.re (compileGlobToRegex r.pattern.data)) :
    e.MatchDomain domain = matchDomainSpec e domain
    ∧ (e.enabled = false → (e.MatchDomain domain).matched = false) := by
  have hkey : ∀ d2 : List Char,
      List.find? (fun r => r.type == ruleTypeDomain &&
          (match r.compiled with
           | RuleCompiled.re t => gtokMatch t d2
           | RuleCompiled.other => false)) e.customRules
      = List.find? (fun r => r.type == ruleTypeDomain &&
          gtokMatch (compileGlobToRegex r.pattern.data) d2) e.customRules := by
    intro d2
    apply find?_congr_list
    intro r hr
    by_cases ht : r.type = ruleTypeDomain
    · rw [hwf r hr ht]
    · have hb : (r.type == ruleTypeDomain) = false := by simp [ht]
      simp [hb]
  constructor
  · cases he : e.enabled with
    | false => unfold Engine.MatchDomain matchDomainSpec; simp [he]
    | true =>
        unfold Engine.MatchDomain matchDomainSpec
        rw [he]
        simp only [Bool.not_true, Bool.false_eq_true, if_false]
        rw [find?_filter_eq]
        rw [hkey]
        simp
  · intro he
    unfold Engine.MatchDomain
    simp [he]

/-- C2 witness: an enabled engine with one configuration pattern and one
compiled custom rule. -/
theorem matchDomain_follows_spec_witness :
    let rule : Rule :=
      { name := "r1", type := "domain", pattern := "*.htb", action := "block",
        description := "", compiled := RuleCompiled.re (compileGlobToRegex "*.htb".data) }
    let e : Engine :=
      { enabled := true, domainPatterns := [compileGlobToRegex "*.local".data],
        customRules := [rule] }
    (∀ r ∈ e.customRules, r.type = ruleTypeDomain →
        r.compiled = RuleCompiled.re (compileGlobToRegex r.pattern.data))
    ∧ (e.MatchDomain "box.htb" = matchDomainSpec e "box.htb"
       ∧ (e.enabled = false → (e.MatchDomain "box.htb").matched = false)) :=
  ⟨by decide, matchDomain_follows_spec _ "box.htb" (by decide)⟩

/-! ### C7: glob compilation semantics -/

/-- The glob semantics the claim words verbatim: `*` matches zero or more
characters (any characters), `?` exactly one, everything else literally,
fully anchored.  Reference definition for the comparison with the compiled
matcher. -/
def globClaim : List Char → List Char → Bool
  | [], s => s.isEmpty
  | c :: p, s =>
      if c = '*' then s.tails.any fun s2 => globClaim p s2
      else if c = '?' then
        match s with
        | [] => false
        | _ :: s2 => globClaim p s2
      else
        match s with
        | [] => false
        | c2 :: s2 => c == c2 && globClaim p s2

/-- The amended glob semantics: as the claim, except that `*` and `?` only
consume non-newline characters (Go regexp `.`).  Reference definition for
the amended comparison. -/
def globNoNewline : List Char → List Char → Bool
  | [], s => s.isEmpty
  | c :: p, s =>
      if c = '*' then (starSuffixes s).any fun s2 => globNoNewline p s2
      else if c = '?' then
        match s with
        | [] => false
        | c2 :: s2 => decide (c2 ≠ '\n') && globNoNewline p s2
      else
        match s with
        | [] => false
        | c2 :: s2 => c == c2 && globNoNewline p s2

/-- C7 counterexample: the claim's glob semantics says the pattern `*`
matches the one-character string consisting of a newline, but the compiled
matcher rejects it (Go regexp `.` does not match a newline). -/
theorem glob_star_newline_divergence :
    globClaim ['*'] ['\n'] = true
    ∧ gtokMatch (compileGlobToRegex ['*']) ['\n'] = false := by
  exact ⟨by decide, by decide⟩

theorem any_congr_list {α : Type} {l : List α} {p q : α → Bool}
    (h : ∀ x ∈ l, p x = q x) : l.any p = l.any q := by
  induction l with
  | nil => rfl
  | cons a l ih =>
      simp only [List.any_cons, h a (by simp)]
      rw [ih fun x hx => h x (by simp [hx])]

/-- Matching a literal-only pattern is equality with the pattern. -/
theorem gtokMatch_literal {p : List Char} (hp : ∀ c ∈ p, c ≠ '*' ∧ c ≠ '?') :
    ∀ s : List Char, gtokMatch (compileGlobToRegex p) s = true ↔ s = p := by
  induction p with
  | nil =>
      intro s
      cases s <;> simp [compileGlobToRegex, gtokMatch]
  | cons c p ih =>
      intro s
      have hc := hp c (by simp)
      have hrest : ∀ c2 ∈ p, c2 ≠ '*' ∧ c2 ≠ '?' := fun c2 h2 => hp c2 (by simp [h2])
      simp only [compileGlobToRegex, List.map_cons, if_neg hc.1, if_neg hc.2]
      cases s with
      | nil => simp [gtokMatch]
      | cons c2 s2 =>
          simp only [gtokMatch, Bool.and_eq_true, beq_iff_eq]
          have ihs := ih hrest s2
          simp only [compileGlobToRegex] at ihs
          rw [ihs]
          constructor
          · rintro ⟨rfl, rfl⟩; rfl
          · intro h
            cases h
            exact ⟨rfl, rfl⟩

/-- The compiled matcher agrees everywhere with the newline-restricted glob
semantics. -/
theorem glob_compiled_eq_noNewline (p : List Char) : ∀ s : List Char,
    gtokMatch (compileGlobToRegex p) s = globNoNewline p s := by
  induction p with
  | nil => intro s; rfl
  | cons c p ih =>
      intro s
      by_cases hstar : c = '*'
      · subst hstar
        simp only [compileGlobToRegex, List.map_cons, if_pos rfl]
        simp only [globNoNewline, if_pos rfl]
        show (starSuffixes s).any (fun s2 => gtokMatch (compileGlobToRegex p) s2) = _
        exact any_congr_list fun v _ => ih v
      · by_cases hq : c = '?'
        · subst hq
          simp only [compileGlobToRegex, List.map_cons, if_neg (by decide : ¬('?' : Char) = '*'),
            if_pos rfl]
          simp only [globNoNewline, if_neg (by decide : ¬('?' : Char) = '*'), if_pos rfl]
          cases s with
          | nil => simp [gtokMatch]
          | cons c2 s2 =>
              have ih2 := ih s2
              simp only [compileGlobToRegex] at ih2
              simp [gtokMatch, ih2]
        · simp only [compileGlobToRegex, List.map_cons, if_neg hstar, if_neg hq]
          simp only [globNoNewline, if_neg hstar, if_neg hq]
          cases s with
          | nil => simp [gtokMatch]
          | cons c2 s2 =>
              have ih2 := ih s2
              simp only [compileGlobToRegex] at ih2
              simp [gtokMatch, ih2]

/-- C7 amended: the compiled matcher realizes the glob semantics restricted
to non-newline wildcard consumption, and satisfies all the claim's concrete
examples: `*.local` matches `test.local` and `sub.test.local` but not
`local`, and `exact.com` matches exactly the string `exact.com`. -/
theorem glob_compiler_semantics (p s : List Char) :
    gtokMatch (compileGlobToRegex p) s = globNoNewline p s
    ∧ gtokMatch (compileGlobToRegex "*.local".data) "test.local".data = true
    ∧ gtokMatch (compileGlobToRegex "*.local".data) "sub.test.local".data = true
    ∧ gtokMatch (compileGlobToRegex "*.local".data) "local".data = false
    ∧ (∀ t : List Char,
        gtokMatch (compileGlobToRegex "exact.com".data) t = true ↔ t = "exact.com".data) :=
  ⟨glob_compiled_eq_noNewline p s, by decide, by decide, by decide,
    gtokMatch_literal (by decide)⟩

/-! ### C10: the resolver's suffix matcher vs the engine's glob on apex domains -/

theorem mem_starSuffixes {s v : List Char} :
    v ∈ starSuffixes s ↔ ∃ u, s = u ++ v ∧ ∀ c ∈ u, c ≠ '\n' := by
  induction s with
  | nil =>
      constructor
      · intro hv
        have hv2 : v = [] := by simpa [starSuffixes] using hv
        subst hv2
        exact ⟨[], rfl, by simp⟩
      · rintro ⟨u, hu, _⟩
        obtain ⟨h1, h2⟩ := List.append_eq_nil.mp hu.symm
        subst h2
        simp [starSuffixes]
  | cons c rest ih =>
      by_cases hc : c = '\n'
      · subst hc
        have hss : starSuffixes ('\n' :: rest) = ['\n' :: rest] := by
          simp [starSuffixes]
        rw [hss]
        simp only [List.mem_singleton]
        constructor
        · rintro rfl
          exact ⟨[], rfl, by simp⟩
        · rintro ⟨u, hu, hnl⟩
          cases u with
          | nil => exact (by simpa using hu : _ = v).symm
          | cons a u2 =>
              exfalso
              have ha : '\n' = a := by
                have := congrArg List.head? hu
                simpa using this
              exact hnl a (by simp) ha.symm
      · simp only [starSuffixes, if_neg hc, List.mem_cons]
        constructor
        · rintro (rfl | hv)
          · exact ⟨[], rfl, by simp⟩
          · obtain ⟨u, hu, hnl⟩ := ih.mp hv
            refine ⟨c :: u, by simp [hu], ?_⟩
            intro x hx
            rcases List.mem_cons.mp hx with rfl | hx2
            · exact hc
            · exact hnl x hx2
        · rintro ⟨u, hu, hnl⟩
          cases u with
          | nil =>
              left
              exact (by simpa using hu : _ = v).symm
          | cons a u2 =>
              right
              have ha : c = a := by
                have := congrArg List.head? hu
                simpa using this
              subst ha
              have htl : rest = u2 ++ v := by
                have := congrArg List.tail hu
                simpa using this
              exact ih.mpr ⟨u2, htl, fun x hx => hnl x (by simp [hx])⟩

def isLitDot (t : GTok) : Bool := t == GTok.lit '.'

/-- Every literal dot of the compiled pattern consumes a dot of the input:
a successful match needs at least as many dots as the pattern has literal
dots. -/
theorem gtokMatch_dot_count {toks : List GTok} {s : List Char}
    (h : gtokMatch toks s = true) : toks.countP isLitDot ≤ s.count '.' := by
  induction toks generalizing s with
  | nil => simp
  | cons t p ih =>
      cases t with
      | star =>
          simp only [gtokMatch, List.any_eq_true] at h
          rcases h with ⟨v, hv, hm⟩
          rcases mem_starSuffixes.mp hv with ⟨u, rfl, _⟩
          have := ih hm
          have hc : (u ++ v).count '.' = u.count '.' + v.count '.' := List.count_append ..
          have hcp : (GTok.star :: p).countP isLitDot = p.countP isLitDot := by
            simp [List.countP_cons, isLitDot]
          omega
      | qmark =>
          cases s with
          | nil => simp [gtokMatch] at h
          | cons c s2 =>
              simp only [gtokMatch, Bool.and_eq_true] at h
              have := ih h.2
              have hcp : (GTok.qmark :: p).countP isLitDot = p.countP isLitDot := by
                simp [List.countP_cons, isLitDot]
              have hcs : (c :: s2).count '.' = s2.count '.' + if c = '.' then 1 else 0 := by
                simp [List.count_cons]
              omega
      | lit c =>
          cases s with
          | nil => simp [gtokMatch] at h
          | cons c2 s2 =>
              simp only [gtokMatch, Bool.and_eq_true, beq_iff_eq] at h
              rcases h with ⟨rfl, hm⟩
              have := ih hm
              have hcp : (GTok.lit c :: p).countP isLitDot
                  = p.countP isLitDot + if c = '.' then 1 else 0 := by
                by_cases hc : c = '.' <;> simp [List.countP_cons, isLitDot, hc]
              have hcs : (c :: s2).count '.' = s2.count '.' + if c = '.' then 1 else 0 := by
                simp [List.count_cons]
              omega

/-- The compiled pattern has exactly as many literal dots as the pattern
has dots (`*` and `?` compile to wildcards, everything else to itself). -/
theorem countP_isLitDot_compile (X : List Char) :
    (compileGlobToRegex X).countP isLitDot = X.count '.' := by
  induction X with
  | nil => rfl
  | cons c X ih =>
      simp only [compileGlobToRegex, List.map_cons] at ih ⊢
      by_cases hs : c = '*'
      · subst hs
        simp only [if_pos rfl, List.countP_cons, List.count_cons]
        simp [isLitDot, ih]
      · by_cases hq : c = '?'
        · subst hq
          simp only [if_neg (by decide : ¬('?' : Char) = '*'), if_pos rfl,
            List.countP_cons, List.count_cons]
          simp [isLitDot, ih]
        · simp only [if_neg hs, if_neg hq, List.countP_cons, List.count_cons]
          by_cases hd : c = '.' <;> simp [isLitDot, hd, ih]

/-- C10: for every domain string `X`, the resolver's suffix matcher accepts
the bare apex `X` for the pattern `*.X` (and every name ending in `.X`),
while the classification engine's compiled glob for `*.X` rejects the bare
apex — the two bypass matchers disagree on apex domains. -/
theorem resolver_vs_engine_apex (X : List Char) :
    matchDomainChars ('*' :: '.' :: X) X = true
    ∧ (∀ pre : List Char, matchDomainChars ('*' :: '.' :: X) (pre ++ '.' :: X) = true)
    ∧ gtokMatch (compileGlobToRegex ('*' :: '.' :: X)) X = false := by
  refine ⟨?_, ?_, ?_⟩
  · simp [matchDomainChars]
  · intro pre
    have hs : ('.' :: X) <:+ (pre ++ '.' :: X) := List.suffix_append ..
    simp [matchDomainChars, List.isSuffixOf_iff_suffix, hs]
  · by_contra hmatch
    rw [Bool.not_eq_false] at hmatch
    have hcomp : compileGlobToRegex ('*' :: '.' :: X)
        = GTok.star :: GTok.lit '.' :: compileGlobToRegex X := by
      simp [compileGlobToRegex]
    rw [hcomp] at hmatch
    simp only [gtokMatch, List.any_eq_true] at hmatch
    rcases hmatch with ⟨v, hv, hm⟩
    rcases mem_starSuffixes.mp hv with ⟨u, hX, _⟩
    cases v with
    | nil => simp [gtokMatch] at hm
    | cons c2 w =>
        simp only [gtokMatch, Bool.and_eq_true, beq_iff_eq] at hm
        rcases hm with ⟨hc2, hw⟩
        subst hc2
        have hle := gtokMatch_dot_count hw
        rw [countP_isLitDot_compile] at hle
        have hc : X.count '.' = u.count '.' + (('.' : Char) :: w).count '.' := by
          rw [hX]; exact List.count_append ..
        have hcw : (('.' : Char) :: w).count '.' = w.count '.' + 1 := by
          simp [List.count_cons]
        omega

/-! ### C4/C5 groundwork: the numeric value of an address

`incrementIP` is, on byte-valid addresses, addition of 1 modulo
`256 ^ length`: it wraps after exhausting the address space. -/

/-- Little-endian value of a (reversed) byte list. -/
def leVal : List Nat → Nat
  | [] => 0
  | b :: rest => b + 256 * leVal rest

/-- Big-endian value of an address. -/
def ipVal (ip : List Nat) : Nat := leVal ip.reverse

theorem length_incRevBytes (l : List Nat) : (incRevBytes l).length = l.length := by
  induction l with
  | nil => rfl
  | cons b rest ih =>
      by_cases hb : (b + 1) % 256 = 0 <;> simp [incRevBytes, hb, ih]

theorem valid_incRevBytes {l : List Nat} (h : ∀ b ∈ l, b < 256) :
    ∀ b ∈ incRevBytes l, b < 256 := by
  induction l with
  | nil => simp [incRevBytes]
  | cons b rest ih =>
      intro x hx
      by_cases hb : (b + 1) % 256 = 0
      · simp only [incRevBytes, if_pos hb, List.mem_cons] at hx
        rcases hx with rfl | hx2
        · omega
        · exact ih (fun y hy => h y (by simp [hy])) x hx2
      · simp only [incRevBytes, if_neg hb, List.mem_cons] at hx
        rcases hx with rfl | hx2
        · exact Nat.mod_lt _ (by omega)
        · exact h x (by simp [hx2])

theorem leVal_lt {l : List Nat} (h : ∀ b ∈ l, b < 256) : leVal l < 256 ^ l.length := by
  induction l with
  | nil => simp [leVal]
  | cons b rest ih =>
      have hb : b < 256 := h b (by simp)
      have hr : leVal rest < 256 ^ rest.length := ih fun y hy => h y (by simp [hy])
      have : (256 : Nat) ^ (rest.length + 1) = 256 * 256 ^ rest.length := by
        rw [pow_succ]; ring
      simp only [leVal, List.length_cons, this]
      omega

theorem leVal_incRevBytes {l : List Nat} (h : ∀ b ∈ l, b < 256) :
    leVal (incRevBytes l) = (leVal l + 1) % 256 ^ l.length := by
  induction l with
  | nil => simp [incRevBytes, leVal]
  | cons b rest ih =>
      have hb : b < 256 := h b (by simp)
      have hrest : ∀ y ∈ rest, y < 256 := fun y hy => h y (by simp [hy])
      have hpow : (256 : Nat) ^ (rest.length + 1) = 256 * 256 ^ rest.length := by
        rw [pow_succ]; ring
      by_cases hc : (b + 1) % 256 = 0
      · have hb255 : b = 255 := by omega
        subst hb255
        simp only [incRevBytes, if_pos hc, leVal, List.length_cons, hc, hpow]
        rw [ih hrest]
        have : 255 + 256 * leVal rest + 1 = 256 * (leVal rest + 1) := by ring
        rw [this, Nat.mul_mod_mul_left]
        omega
      · have hb1 : b + 1 < 256 := by omega
        have hbmod : (b + 1) % 256 = b + 1 := Nat.mod_eq_of_lt hb1
        have hr : leVal rest < 256 ^ rest.length := leVal_lt hrest
        simp only [incRevBytes, if_neg hc, leVal, List.length_cons, hbmod, hpow]
        rw [Nat.mod_eq_of_lt (by omega)]
        omega

theorem leVal_inj {l1 l2 : List Nat} (hlen : l1.length = l2.length)
    (h1 : ∀ b ∈ l1, b < 256) (h2 : ∀ b ∈ l2, b < 256)
    (hv : leVal l1 = leVal l2) : l1 = l2 := by
  induction l1 generalizing l2 with
  | nil => cases l2 with
      | nil => rfl
      | cons b t => simp at hlen
  | cons b t ih =>
      cases l2 with
      | nil => simp at hlen
      | cons b2 t2 =>
          have hb : b < 256 := h1 b (by simp)
          have hb2 : b2 < 256 := h2 b2 (by simp)
          simp only [leVal] at hv
          have hbe : b = b2 ∧ leVal t = leVal t2 := by omega
          have ht : t = t2 := ih (by simpa using hlen)
            (fun y hy => h1 y (by simp [hy])) (fun y hy => h2 y (by simp [hy])) hbe.2
          rw [hbe.1, ht]

theorem length_incrementIP (ip : List Nat) : (incrementIP ip).length = ip.length := by
  simp [incrementIP, length_incRevBytes]

theorem valid_incrementIP {ip : List Nat} (h : ∀ b ∈ ip, b < 256) :
    ∀ b ∈ incrementIP ip, b < 256 := by
  intro b hb
  simp only [incrementIP, List.mem_reverse] at hb
  exact valid_incRevBytes (fun y hy => h y (by simpa using hy)) b hb

theorem ipVal_incrementIP {ip : List Nat} (h : ∀ b ∈ ip, b < 256) :
    ipVal (incrementIP ip) = (ipVal ip + 1) % 256 ^ ip.length := by
  simp only [ipVal, incrementIP, List.reverse_reverse]
  rw [leVal_incRevBytes (fun y hy => h y (by simpa using hy))]
  simp

theorem ipVal_lt {ip : List Nat} (h : ∀ b ∈ ip, b < 256) : ipVal ip < 256 ^ ip.length := by
  have := @leVal_lt ip.reverse (fun y hy => h y (by simpa using hy))
  simpa [ipVal] using this

theorem ipVal_inj {ip1 ip2 : List Nat} (hlen : ip1.length = ip2.length)
    (h1 : ∀ b ∈ ip1, b < 256) (h2 : ∀ b ∈ ip2, b < 256)
    (hv : ipVal ip1 = ipVal ip2) : ip1 = ip2 := by
  have := @leVal_inj ip1.reverse ip2.reverse (by simpa using hlen)
    (fun y hy => h1 y (by simpa using hy)) (fun y hy => h2 y (by simpa using hy)) hv
  have h3 := congrArg List.reverse this
  simpa using h3

theorem length_iterate_incrementIP (ip : List Nat) (k : Nat) :
    (incrementIP^[k] ip).length = ip.length := by
  induction k with
  | zero => simp
  | succ k ih => rw [Function.iterate_succ_apply', length_incrementIP, ih]

theorem valid_iterate_incrementIP {ip : List Nat} (h : ∀ b ∈ ip, b < 256) (k : Nat) :
    ∀ b ∈ incrementIP^[k] ip, b < 256 := by
  induction k with
  | zero => simpa using h
  | succ k ih => rw [Function.iterate_succ_apply']; exact valid_incrementIP ih

theorem ipVal_iterate_incrementIP {ip : List Nat} (h : ∀ b ∈ ip, b < 256) (k : Nat) :
    ipVal (incrementIP^[k] ip) = (ipVal ip + k) % 256 ^ ip.length := by
  induction k with
  | zero => simpa using (Nat.mod_eq_of_lt (ipVal_lt h)).symm
  | succ k ih =>
      rw [Function.iterate_succ_apply', ipVal_incrementIP (valid_iterate_incrementIP h k),
        length_iterate_incrementIP, ih, Nat.mod_add_mod]
      rfl

theorem iterate_incrementIP_inj {ip : List Nat} (h : ∀ b ∈ ip, b < 256)
    {j k : Nat} (hj : j < 256 ^ ip.length) (hk : k < 256 ^ ip.length)
    (he : incrementIP^[j] ip = incrementIP^[k] ip) : j = k := by
  have hv := congrArg ipVal he
  rw [ipVal_iterate_incrementIP h j, ipVal_iterate_incrementIP h k] at hv
  have hmod : (ipVal ip + j) % 256 ^ ip.length = (ipVal ip + k) % 256 ^ ip.length := hv
  have : j % 256 ^ ip.length = k % 256 ^ ip.length :=
    Nat.ModEq.add_left_cancel' (ipVal ip) hmod
  rwa [Nat.mod_eq_of_lt hj, Nat.mod_eq_of_lt hk] at this

theorem iterate_incrementIP_wrap {ip : List Nat} (h : ∀ b ∈ ip, b < 256) :
    incrementIP^[256 ^ ip.length] ip = ip := by
  apply ipVal_inj (length_iterate_incrementIP ip _)
    (valid_iterate_incrementIP h _) h
  rw [ipVal_iterate_incrementIP h, Nat.add_mod_right]
  exact Nat.mod_eq_of_lt (ipVal_lt h)

/-! ### Injectivity of the dotted-decimal rendering -/

def digitVal (c : Char) : Nat := c.toNat - 48

def val10 (l : List Char) : Nat := l.foldl (fun a c => 10 * a + digitVal c) 0

theorem val10_natChars (n : Nat) : val10 (natChars n) = n := by
  induction n using Nat.strong_induction_on with
  | _ n ih =>
      by_cases h : n < 10
      · have hd : ∀ k < 10, digitVal (Nat.digitChar k) = k := by decide
        rw [natChars, if_pos h]
        simpa [val10, List.foldl] using hd n h
      · have hdiv : n / 10 < n := Nat.div_lt_self (by omega) (by omega)
        have hd : ∀ k < 10, digitVal (Nat.digitChar k) = k := by decide
        rw [natChars, if_neg h]
        have hfold : val10 (natChars (n / 10) ++ [Nat.digitChar (n % 10)])
            = 10 * val10 (natChars (n / 10)) + digitVal (Nat.digitChar (n % 10)) := by
          simp [val10, List.foldl_append]
        rw [hfold, ih (n / 10) hdiv, hd (n % 10) (Nat.mod_lt _ (by omega))]
        omega

theorem natChars_injective : Function.Injective natChars := by
  intro a b h
  have := congrArg val10 h
  rwa [val10_natChars, val10_natChars] at this

theorem natChars_digit {n : Nat} : ∀ c ∈ natChars n, '0' ≤ c ∧ c ≤ '9' := by
  induction n using Nat.strong_induction_on with
  | _ n ih =>
      have hd : ∀ k < 10, '0' ≤ Nat.digitChar k ∧ Nat.digitChar k ≤ '9' := by decide
      by_cases h : n < 10
      · rw [natChars, if_pos h]
        intro c hc
        rw [List.mem_singleton] at hc
        exact hc ▸ hd n h
      · rw [natChars, if_neg h]
        intro c hc
        rcases List.mem_append.mp hc with h1 | h2
        · exact ih (n / 10) (Nat.div_lt_self (by omega) (by omega)) c h1
        · rw [List.mem_singleton] at h2
          exact h2 ▸ hd (n % 10) (Nat.mod_lt _ (by omega))

theorem natChars_no_dot {n : Nat} : ('.' : Char) ∉ natChars n := by
  intro hmem
  have := natChars_digit '.' hmem
  revert this
  decide

theorem natChars_ne_nil (n : Nat) : natChars n ≠ [] := by
  by_cases h : n < 10
  · rw [natChars]; simp [h]
  · rw [natChars]; simp [h]

/-- The tail a dot-joined list contributes after its head part. -/
def dotRest (ps : List (List Char)) : List Char :=
  match ps with
  | [] => []
  | _ :: _ => '.' :: dotJoin ps

theorem dotJoin_head_rest (p : List Char) (ps : List (List Char)) :
    dotJoin (p :: ps) = p ++ dotRest ps := by
  cases ps <;> simp [dotJoin, dotRest]

/-- Splitting a dot-joined string: heads agree and rests agree when both
heads are dot-free and both rests are empty or dot-initial. -/
theorem dot_split_unique : ∀ (x y a b : List Char),
    ('.' : Char) ∉ x → ('.' : Char) ∉ y →
    (a = [] ∨ ∃ t, a = '.' :: t) → (b = [] ∨ ∃ t, b = '.' :: t) →
    x ++ a = y ++ b → x = y ∧ a = b := by
  intro x
  induction x with
  | nil =>
      intro y a b _ hy ha _ he
      cases y with
      | nil => exact ⟨rfl, he⟩
      | cons c y2 =>
          exfalso
          rcases ha with rfl | ⟨t, rfl⟩
          · simp at he
          · have hc : '.' = c := by simpa using congrArg List.head? he
            exact hy (hc ▸ List.mem_cons_self c y2)
  | cons c x2 ih =>
      intro y a b hx hy ha hb he
      cases y with
      | nil =>
          exfalso
          rcases hb with rfl | ⟨t, rfl⟩
          · simp at he
          · have hc : c = '.' := by simpa using congrArg List.head? he
            exact hx (hc ▸ List.mem_cons_self c x2)
      | cons c2 y2 =>
          have hc : c = c2 := by simpa using congrArg List.head? he
          have ht : x2 ++ a = y2 ++ b := by simpa using congrArg List.tail he
          obtain ⟨h1, h2⟩ := ih y2 a b (fun hm => hx (List.mem_cons_of_mem c hm))
            (fun hm => hy (List.mem_cons_of_mem c2 hm)) ha hb ht
          exact ⟨by rw [hc, h1], h2⟩

theorem dotRest_shape (ps : List (List Char)) :
    dotRest ps = [] ∨ ∃ t, dotRest ps = '.' :: t := by
  cases ps with
  | nil => exact Or.inl rfl
  | cons a b => exact Or.inr ⟨dotJoin (a :: b), rfl⟩

theorem dotJoin_inj : ∀ (xs ys : List (List Char)),
    (∀ p ∈ xs, p ≠ [] ∧ ('.' : Char) ∉ p) → (∀ p ∈ ys, p ≠ [] ∧ ('.' : Char) ∉ p) →
    dotJoin xs = dotJoin ys → xs = ys := by
  intro xs
  induction xs with
  | nil =>
      intro ys _ hys he
      cases ys with
      | nil => rfl
      | cons y ys2 =>
          exfalso
          rw [dotJoin_head_rest] at he
          have hy := hys y (by simp)
          cases hyl : y with
          | nil => exact hy.1 hyl
          | cons c t =>
              rw [hyl] at he
              simp [dotJoin] at he
  | cons x xs2 ih =>
      intro ys hxs hys he
      cases ys with
      | nil =>
          exfalso
          rw [dotJoin_head_rest] at he
          have hx := hxs x (by simp)
          cases hxl : x with
          | nil => exact hx.1 hxl
          | cons c t =>
              rw [hxl] at he
              simp [dotJoin] at he
      | cons y ys2 =>
          rw [dotJoin_head_rest, dotJoin_head_rest] at he
          have hx := hxs x (by simp)
          have hy := hys y (by simp)
          obtain ⟨h1, h2⟩ := dot_split_unique x y _ _ hx.2 hy.2
            (dotRest_shape xs2) (dotRest_shape ys2) he
          have htail : xs2 = ys2 := by
            cases xs2 with
            | nil =>
                cases ys2 with
                | nil => rfl
                | cons a b => simp [dotRest] at h2
            | cons a b =>
                cases ys2 with
                | nil => simp [dotRest] at h2
                | cons a2 b2 =>
                    simp only [dotRest, List.cons.injEq] at h2
                    exact ih (a2 :: b2) (fun p hp => hxs p (by simp [hp]))
                      (fun p hp => hys p (by simp [hp])) (by simpa using h2)
          rw [h1, htail]

theorem ipStringChars_injective : Function.Injective ipStringChars := by
  intro ip1 ip2 h
  have hmap : ip1.map natChars = ip2.map natChars := by
    apply dotJoin_inj
    · intro p hp
      rcases List.mem_map.mp hp with ⟨n, _, rfl⟩
      exact ⟨natChars_ne_nil n, natChars_no_dot⟩
    · intro p hp
      rcases List.mem_map.mp hp with ⟨n, _, rfl⟩
      exact ⟨natChars_ne_nil n, natChars_no_dot⟩
    · exact h
  exact List.map_injective_iff.mpr natChars_injective hmap

/-! ### The shape of reachable allocator states -/

/-- Allocation from a freshly constructed server with first host address
`start` produces states of this shape: the cursor is `start` advanced once
per mapping, the mapped addresses are exactly the successive cursor values
(newest first), the reverse map mirrors the forward map, and the canonical
domains are pairwise distinct. -/
def Shaped (start : List Nat) (f : FakeDNSServer) : Prop :=
  f.nextIP = incrementIP^[f.mappings.length] start
  ∧ f.mappings.map Prod.snd
      = ((List.range f.mappings.length).reverse).map (fun j => incrementIP^[j] start)
  ∧ f.reverseMaps = f.mappings.map (fun p => (ipStringChars p.2, p.1))
  ∧ (f.mappings.map Prod.fst).Nodup

def runCalls (base : List Nat) (calls : List String) : FakeDNSServer :=
  runFrom (mkFakeDNS base) calls

theorem lookupAssoc_mem {α β : Type} [BEq α] [LawfulBEq α] {l : List (α × β)} {k : α}
    {v : β} (h : lookupAssoc l k = some v) : (k, v) ∈ l := by
  unfold lookupAssoc at h
  cases hf : l.find? (fun p => p.1 == k) with
  | none => rw [hf] at h; cases h
  | some p =>
      rw [hf] at h
      have hp2 : p.2 = v := by simpa using h
      have hpk : p.1 = k := by
        have := List.find?_some hf
        simpa using this
      have hmem := List.mem_of_find?_eq_some hf
      have : p = (k, v) := by
        cases p
        simp_all
      rwa [this] at hmem

theorem lookupAssoc_none_iff {α β : Type} [BEq α] {l : List (α × β)} {k : α} :
    lookupAssoc l k = none ↔ ∀ p ∈ l, (p.1 == k) = false := by
  unfold lookupAssoc
  rw [Option.map_eq_none']
  rw [List.find?_eq_none]
  simp

theorem mem_values_of_lookup {α β : Type} [BEq α] {l : List (α × β)} {k : α} {v : β}
    (h : lookupAssoc l k = some v) : v ∈ l.map Prod.snd := by
  unfold lookupAssoc at h
  cases hf : l.find? (fun p => p.1 == k) with
  | none => rw [hf] at h; cases h
  | some p =>
      rw [hf] at h
      have hp2 : p.2 = v := by simpa using h
      exact hp2 ▸ List.mem_map_of_mem Prod.snd (List.mem_of_find?_eq_some hf)

theorem shaped_mkFakeDNS (base : List Nat) : Shaped (incrementIP base) (mkFakeDNS base) := by
  refine ⟨?_, ?_, ?_, ?_⟩ <;> simp [mkFakeDNS]

theorem shaped_getFakeIP {start : List Nat} {f : FakeDNSServer} (hs : Shaped start f)
    (d : String) : Shaped start (f.getFakeIP d).1 := by
  obtain ⟨h1, h2, h3, h4⟩ := hs
  cases hd : lookupAssoc f.mappings (canonicalName d) with
  | some v => rw [getFakeIP_hit hd]; exact ⟨h1, h2, h3, h4⟩
  | none =>
      rw [getFakeIP_miss hd]
      have hkey : canonicalName d ∉ f.mappings.map Prod.fst := by
        intro hmem
        rcases List.mem_map.mp hmem with ⟨p, hp, hpk⟩
        have hb := (lookupAssoc_none_iff.mp hd) p hp
        rw [hpk] at hb
        simp at hb
      refine ⟨?_, ?_, ?_, ?_⟩
      · simp only [List.length_cons]
        rw [h1]
        exact (Function.iterate_succ_apply' incrementIP _ start).symm
      · simp only [List.map_cons, List.length_cons]
        rw [h1, h2, List.range_succ, List.reverse_append]
        simp
      · simp only [List.map_cons]
        rw [h3]
      · simp only [List.map_cons]
        exact List.nodup_cons.mpr ⟨hkey, h4⟩

theorem shaped_runFrom {start : List Nat} {f : FakeDNSServer} (hs : Shaped start f)
    (calls : List String) : Shaped start (runFrom f calls) := by
  induction calls generalizing f with
  | nil => exact hs
  | cons c cs ih => exact ih (shaped_getFakeIP hs c)

theorem shaped_runCalls (base : List Nat) (calls : List String) :
    Shaped (incrementIP base) (runCalls base calls) :=
  shaped_runFrom (shaped_mkFakeDNS base) calls

theorem shaped_values_nodup {start : List Nat} {f : FakeDNSServer} (hs : Shaped start f)
    (hlen4 : start.length = 4) (hval : ∀ b ∈ start, b < 256)
    (hcap : f.mappings.length ≤ 2 ^ 32) :
    (f.mappings.map Prod.snd).Nodup := by
  rw [hs.2.1]
  have h32 : (256 : Nat) ^ start.length = 2 ^ 32 := by rw [hlen4]; norm_num
  refine List.Nodup.map_on ?_ (List.nodup_reverse.mpr (List.nodup_range _))
  intro j hj k hk he
  rw [List.mem_reverse, List.mem_range] at hj hk
  exact iterate_incrementIP_inj hval (by omega) (by omega) he

theorem shaped_strings_nodup {start : List Nat} {f : FakeDNSServer} (hs : Shaped start f)
    (hlen4 : start.length = 4) (hval : ∀ b ∈ start, b < 256)
    (hcap : f.mappings.length ≤ 2 ^ 32) :
    (f.mappings.map (fun p => ipStringChars p.2)).Nodup := by
  have : f.mappings.map (fun p => ipStringChars p.2)
      = (f.mappings.map Prod.snd).map ipStringChars := by
    rw [List.map_map]
    rfl
  rw [this]
  exact (shaped_values_nodup hs hlen4 hval hcap).map ipStringChars_injective

theorem lookup_value_index {start : List Nat} {f : FakeDNSServer} (hs : Shaped start f)
    {k : String} {v : List Nat} (h : lookupAssoc f.mappings k = some v) :
    ∃ j, j < f.mappings.length ∧ v = incrementIP^[j] start := by
  have hv := mem_values_of_lookup h
  rw [hs.2.1] at hv
  rcases List.mem_map.mp hv with ⟨j, hj, hje⟩
  rw [List.mem_reverse, List.mem_range] at hj
  exact ⟨j, hj, hje.symm⟩

theorem mem_keys_unique_of_values_nodup {α β : Type} {l : List (α × β)}
    (hv : (l.map Prod.snd).Nodup) {k1 k2 : α} {v : β}
    (h1 : (k1, v) ∈ l) (h2 : (k2, v) ∈ l) : k1 = k2 := by
  induction l with
  | nil => cases h1
  | cons p t ih =>
      obtain ⟨pa, pb⟩ := p
      simp only [List.map_cons] at hv
      have hnd := List.nodup_cons.mp hv
      rcases List.mem_cons.mp h1 with he1 | h1t
      · rcases List.mem_cons.mp h2 with he2 | h2t
        · have ha1 : k1 = pa := congrArg Prod.fst he1
          have ha2 : k2 = pa := congrArg Prod.fst he2
          rw [ha1, ha2]
        · exfalso
          have hvb : v = pb := congrArg Prod.snd he1
          exact hnd.1 (hvb ▸ List.mem_map_of_mem Prod.snd h2t)
      · rcases List.mem_cons.mp h2 with he2 | h2t
        · exfalso
          have hvb : v = pb := congrArg Prod.snd he2
          exact hnd.1 (hvb ▸ List.mem_map_of_mem Prod.snd h1t)
        · exact ih hnd.2 h1t h2t

theorem lookupAssoc_swap {l : List (String × List Nat)}
    (hnd : (l.map fun p => ipStringChars p.2).Nodup) {k : String} {v : List Nat}
    (h : lookupAssoc l k = some v) :
    lookupAssoc (l.map fun p => (ipStringChars p.2, p.1)) (ipStringChars v) = some k := by
  induction l with
  | nil => cases h
  | cons p t ih =>
      obtain ⟨a, b⟩ := p
      simp only [List.map_cons] at hnd
      have hnd2 := List.nodup_cons.mp hnd
      rw [lookupAssoc_cons] at h
      simp only [List.map_cons]
      rw [lookupAssoc_cons]
      by_cases hab : a = k
      · subst hab
        simp only [beq_self_eq_true, if_pos] at h
        have hbv : b = v := by simpa using h
        subst hbv
        simp
      · have hfb : (a == k) = false := by simp [hab]
        rw [hfb] at h
        simp only [Bool.false_eq_true, if_false] at h
        by_cases hbe : ipStringChars b = ipStringChars v
        · exfalso
          have hbv : b = v := ipStringChars_injective hbe
          subst hbv
          have : b ∈ t.map Prod.snd := mem_values_of_lookup h
          have : ipStringChars b ∈ t.map (fun p => ipStringChars p.2) := by
            rcases List.mem_map.mp this with ⟨q, hq, hqe⟩
            exact List.mem_map.mpr ⟨q, hq, by rw [hqe]⟩
          exact hnd2.1 this
        · have hfb2 : (ipStringChars b == ipStringChars v) = false := by simp [hbe]
          rw [hfb2]
          simp only [Bool.false_eq_true, if_false]
          exact ih hnd2.2 h

theorem lookupAssoc_swap_none {l : List (String × List Nat)} {ip : List Nat}
    (h : ip ∉ l.map Prod.snd) :
    lookupAssoc (l.map fun p => (ipStringChars p.2, p.1)) (ipStringChars ip) = none := by
  induction l with
  | nil => rfl
  | cons p t ih =>
      obtain ⟨a, b⟩ := p
      simp only [List.map_cons]
      rw [lookupAssoc_cons]
      have hb : b ≠ ip := by
        intro he
        exact h (by simp [he])
      have hfb : (ipStringChars b == ipStringChars ip) = false := by
        simp only [beq_eq_false_iff_ne, ne_eq]
        intro he
        exact hb (ipStringChars_injective he)
      rw [hfb]
      simp only [Bool.false_eq_true, if_false]
      exact ih fun hm => h (by simp [hm])

theorem getFakeIP_snd_hit {f : FakeDNSServer} {d : String} {v : List Nat}
    (h : lookupAssoc f.mappings (canonicalName d) = some v) :
    (f.getFakeIP d).2 = v ∧ (f.getFakeIP d).1 = f := by
  rw [getFakeIP_hit h]
  exact ⟨rfl, rfl⟩

theorem getFakeIP_snd_miss {f : FakeDNSServer} {d : String}
    (h : lookupAssoc f.mappings (canonicalName d) = none) :
    (f.getFakeIP d).2 = f.nextIP
    ∧ (f.getFakeIP d).1.mappings = (canonicalName d, f.nextIP) :: f.mappings
    ∧ (f.getFakeIP d).1.nextIP = incrementIP f.nextIP := by
  rw [getFakeIP_miss h]
  exact ⟨rfl, rfl, rfl⟩

/-- C4 amended: as long as the allocator has not exhausted the 32-bit
address space (fewer than `2^32` mappings), distinct canonical domains
receive distinct addresses on any reachable state, and the forward and
reverse maps form a bijection: the reverse map mirrors the forward map
entry for entry, with no duplicate domains and no duplicate addresses. -/
theorem fake_ip_distinct_bounded (base : List Nat) (hlen : base.length = 4)
    (hval : ∀ b ∈ base, b < 256) (calls : List String) (d1 d2 : String)
    (hne : canonicalName d1 ≠ canonicalName d2)
    (hcap : (runCalls base calls).GetMappingCount + 2 ≤ 2 ^ 32) :
    ((((runCalls base calls).getFakeIP d1).1).getFakeIP d2).2
        ≠ ((runCalls base calls).getFakeIP d1).2
    ∧ (runCalls base calls).reverseMaps
        = (runCalls base calls).mappings.map (fun p => (ipStringChars p.2, p.1))
    ∧ ((runCalls base calls).mappings.map Prod.fst).Nodup
    ∧ ((runCalls base calls).mappings.map Prod.snd).Nodup := by
  have hstart_len : (incrementIP base).length = 4 := by rw [length_incrementIP, hlen]
  have hstart_val := valid_incrementIP hval
  have hs := shaped_runCalls base calls
  simp only [FakeDNSServer.GetMappingCount] at hcap
  have hpow : (256 : Nat) ^ (incrementIP base).length = 2 ^ 32 := by
    rw [hstart_len]; norm_num
  refine ⟨?_, hs.2.2.1, hs.2.2.2, shaped_values_nodup hs hstart_len hstart_val (by omega)⟩
  cases hd1 : lookupAssoc (runCalls base calls).mappings (canonicalName d1) with
  | some v1 =>
      obtain ⟨hv1, hf1⟩ := getFakeIP_snd_hit hd1
      obtain ⟨j1, hj1, hjv1⟩ := lookup_value_index hs hd1
      rw [hv1, hf1]
      cases hd2 : lookupAssoc (runCalls base calls).mappings (canonicalName d2) with
      | some v2 =>
          obtain ⟨hv2, _⟩ := getFakeIP_snd_hit hd2
          rw [hv2]
          intro he
          have hm1 := lookupAssoc_mem hd1
          have hm2 := lookupAssoc_mem hd2
          rw [he] at hm2
          exact hne (mem_keys_unique_of_values_nodup
            (shaped_values_nodup hs hstart_len hstart_val (by omega)) hm2 hm1).symm
      | none =>
          obtain ⟨hv2, _, _⟩ := getFakeIP_snd_miss hd2
          rw [hv2, hs.1, hjv1]
          intro he
          have := iterate_incrementIP_inj hstart_val
            (by rw [hpow]; omega) (by rw [hpow]; omega) he
          omega
  | none =>
      obtain ⟨hv1, hm1, hn1⟩ := getFakeIP_snd_miss hd1
      rw [hv1, hs.1]
      cases hd2 : lookupAssoc (((runCalls base calls).getFakeIP d1).1).mappings
          (canonicalName d2) with
      | some v2 =>
          obtain ⟨hv2, _⟩ := getFakeIP_snd_hit hd2
          rw [hv2]
          have hd2tail : lookupAssoc (runCalls base calls).mappings (canonicalName d2)
              = some v2 := by
            rw [hm1, lookupAssoc_cons] at hd2
            have hfb : (canonicalName d1 == canonicalName d2) = false := by
              simp [hne]
            rw [hfb] at hd2
            simpa using hd2
          obtain ⟨j2, hj2, hjv2⟩ := lookup_value_index hs hd2tail
          rw [hjv2]
          intro he
          have := iterate_incrementIP_inj hstart_val
            (by rw [hpow]; omega) (by rw [hpow]; omega) he
          omega
      | none =>
          obtain ⟨hv2, _, _⟩ := getFakeIP_snd_miss hd2
          rw [hv2, hn1, hs.1]
          rw [show incrementIP (incrementIP^[(runCalls base calls).mappings.length]
                (incrementIP base))
              = incrementIP^[(runCalls base calls).mappings.length + 1] (incrementIP base)
            from (Function.iterate_succ_apply' incrementIP _ _).symm]
          intro he
          have := iterate_incrementIP_inj hstart_val
            (by rw [hpow]; omega) (by rw [hpow]; omega) he
          omega

/-- C4 amended witness: a fresh allocator over `198.18.0.0/15`; the first
two domains get distinct addresses and the maps mirror each other. -/
theorem fake_ip_distinct_bounded_witness :
    ([198, 18, 0, 0] : List Nat).length = 4
    ∧ (∀ b ∈ ([198, 18, 0, 0] : List Nat), b < 256)
    ∧ canonicalName "a" ≠ canonicalName "b"
    ∧ (runCalls [198, 18, 0, 0] []).GetMappingCount + 2 ≤ 2 ^ 32
    ∧ (((((runCalls [198, 18, 0, 0] []).getFakeIP "a").1).getFakeIP "b").2
          ≠ ((runCalls [198, 18, 0, 0] []).getFakeIP "a").2
       ∧ (runCalls [198, 18, 0, 0] []).reverseMaps
          = (runCalls [198, 18, 0, 0] []).mappings.map (fun p => (ipStringChars p.2, p.1))
       ∧ ((runCalls [198, 18, 0, 0] []).mappings.map Prod.fst).Nodup
       ∧ ((runCalls [198, 18, 0, 0] []).mappings.map Prod.snd).Nodup) :=
  ⟨rfl, by decide, by decide, by decide,
    fake_ip_distinct_bounded [198, 18, 0, 0] rfl (by decide) [] "a" "b"
      (by decide) (by decide)⟩

/-- C5 amended: on any reachable state that has not exhausted the 32-bit
address space, the reverse lookup of the address `getFakeIP(d)` returns
yields the canonical form of `d`, and the reverse lookup of an address that
was never allocated yields the empty string. -/
theorem getDomainForIP_roundtrip_bounded (base : List Nat) (hlen : base.length = 4)
    (hval : ∀ b ∈ base, b < 256) (calls : List String) (d : String)
    (hcap : (runCalls base calls).GetMappingCount ≤ 2 ^ 32) :
    (((runCalls base calls).getFakeIP d).1).GetDomainForIP
        (((runCalls base calls).getFakeIP d).2) = canonicalName d
    ∧ (∀ ip : List Nat, ip ∉ (runCalls base calls).mappings.map Prod.snd →
        (runCalls base calls).GetDomainForIP ip = "") := by
  have hstart_len : (incrementIP base).length = 4 := by rw [length_incrementIP, hlen]
  have hstart_val := valid_incrementIP hval
  have hs := shaped_runCalls base calls
  simp only [FakeDNSServer.GetMappingCount] at hcap
  constructor
  · cases hd : lookupAssoc (runCalls base calls).mappings (canonicalName d) with
    | some v =>
        obtain ⟨hv, hf⟩ := getFakeIP_snd_hit hd
        rw [hv, hf]
        unfold FakeDNSServer.GetDomainForIP
        rw [hs.2.2.1,
          lookupAssoc_swap (shaped_strings_nodup hs hstart_len hstart_val (by omega)) hd]
        rfl
    | none =>
        rw [getFakeIP_miss hd]
        unfold FakeDNSServer.GetDomainForIP
        simp [lookupAssoc_cons]
  · intro ip hip
    unfold FakeDNSServer.GetDomainForIP
    rw [hs.2.2.1, lookupAssoc_swap_none hip]
    rfl

/-- C5 amended witness: a fresh allocator over `198.18.0.0/15`; the reverse
lookup of the first allocated address returns the canonical domain, and an
unallocated address maps to the empty string. -/
theorem getDomainForIP_roundtrip_bounded_witness :
    ([198, 18, 0, 0] : List Nat).length = 4
    ∧ (∀ b ∈ ([198, 18, 0, 0] : List Nat), b < 256)
    ∧ (runCalls [198, 18, 0, 0] []).GetMappingCount ≤ 2 ^ 32
    ∧ ((((runCalls [198, 18, 0, 0] []).getFakeIP "example.com").1).GetDomainForIP
          (((runCalls [198, 18, 0, 0] []).getFakeIP "example.com").2)
          = canonicalName "example.com"
       ∧ (∀ ip : List Nat, ip ∉ (runCalls [198, 18, 0, 0] []).mappings.map Prod.snd →
          (runCalls [198, 18, 0, 0] []).GetDomainForIP ip = "")) :=
  ⟨rfl, by decide, by decide,
    getDomainForIP_roundtrip_bounded [198, 18, 0, 0] rfl (by decide) [] "example.com"
      (by decide)⟩

/-! ### Address-space exhaustion: the wrap-around counterexamples

`incrementIP` wraps modulo `2^32` on 4-byte addresses and `getFakeIP` never
checks the subnet bound, so after `2^32` allocations the cursor returns to
its first value and addresses are reused. -/

/-- The `i`-th query domain of the exhaustion run: `aa…a.` with `i+1`
letters — already canonical, pairwise distinct. -/
def domainOf (i : Nat) : String :=
  String.mk (List.replicate (i + 1) 'a' ++ ['.'])

/-- First host address of `198.18.0.0/15`. -/
def start198 : List Nat := [198, 18, 0, 1]

/-- The allocator state after querying `domainOf 0 … domainOf (n-1)` once
each, from a fresh server over `198.18.0.0/15`. -/
def runN (n : Nat) : FakeDNSServer :=
  runCalls [198, 18, 0, 0] ((List.range n).map domainOf)

theorem canonicalName_domainOf (i : Nat) : canonicalName (domainOf i) = domainOf i := by
  have h1 : lowerChar 'a' = 'a' := by decide
  have h2 : lowerChar '.' = '.' := by decide
  unfold canonicalName domainOf
  congr 1
  unfold canonChars
  rw [show (String.mk (List.replicate (i + 1) 'a' ++ ['.'])).data
      = List.replicate (i + 1) 'a' ++ ['.'] from rfl]
  rw [List.getLast?_concat]
  simp [List.map_append, List.map_replicate, h1, h2]

theorem domainOf_inj {i j : Nat} (h : domainOf i = domainOf j) : i = j := by
  have hd := congrArg String.data h
  simp only [domainOf] at hd
  have hlen := congrArg List.length hd
  simp only [List.length_append, List.length_replicate, List.length_cons,
    List.length_nil] at hlen
  omega

theorem runN_succ (n : Nat) : runN (n + 1) = ((runN n).getFakeIP (domainOf n)).1 := by
  unfold runN runCalls runFrom
  rw [List.range_succ, List.map_append, List.foldl_append]
  rfl

theorem runN_characterization (n : Nat) :
    (runN n).mappings
      = ((List.range n).reverse).map (fun j => (domainOf j, incrementIP^[j] start198))
    ∧ (runN n).reverseMaps
      = ((List.range n).reverse).map
          (fun j => (ipStringChars (incrementIP^[j] start198), domainOf j))
    ∧ (runN n).nextIP = incrementIP^[n] start198 := by
  induction n with
  | zero =>
      refine ⟨rfl, rfl, ?_⟩
      show incrementIP [198, 18, 0, 0] = incrementIP^[0] start198
      decide
  | succ n ih =>
      obtain ⟨hm, hr, hn⟩ := ih
      rw [runN_succ]
      have hd : lookupAssoc (runN n).mappings (canonicalName (domainOf n)) = none := by
        rw [canonicalName_domainOf, hm, lookupAssoc_none_iff]
        intro p hp
        rcases List.mem_map.mp hp with ⟨j, hj, rfl⟩
        rw [List.mem_reverse, List.mem_range] at hj
        simp only [beq_eq_false_iff_ne, ne_eq]
        intro he
        exact absurd (domainOf_inj he) (by omega)
      rw [getFakeIP_miss hd]
      refine ⟨?_, ?_, ?_⟩
      · show (canonicalName (domainOf n), (runN n).nextIP) :: (runN n).mappings = _
        rw [canonicalName_domainOf, hn, hm, List.range_succ, List.reverse_append]
        simp
      · show (ipStringChars (runN n).nextIP, canonicalName (domainOf n))
            :: (runN n).reverseMaps = _
        rw [canonicalName_domainOf, hn, hr, List.range_succ, List.reverse_append]
        simp
      · show incrementIP (runN n).nextIP = _
        rw [hn]
        exact (Function.iterate_succ_apply' incrementIP n start198).symm

theorem lookup_runN {i n : Nat} (h : i < n) :
    lookupAssoc (runN n).mappings (domainOf i) = some (incrementIP^[i] start198) := by
  induction n with
  | zero => omega
  | succ n ih =>
      have hm : (runN (n + 1)).mappings
          = (domainOf n, incrementIP^[n] start198) :: (runN n).mappings := by
        rw [(runN_characterization (n + 1)).1, (runN_characterization n).1,
          List.range_succ, List.reverse_append]
        simp
      rw [hm, lookupAssoc_cons]
      by_cases hin : i = n
      · subst hin
        simp
      · have hfb : (domainOf n == domainOf i) = false := by
          simp only [beq_eq_false_iff_ne, ne_eq]
          intro he
          exact hin (domainOf_inj he).symm
        rw [hfb]
        simp only [Bool.false_eq_true, if_false]
        exact ih (by omega)

/-- C4 counterexample: after `2^32` allocations the cursor has wrapped
around the 4-byte address space, and the allocation for the fresh domain
`domainOf (2^32)` returns the very same address that `domainOf 0` received
— two distinct canonical domains with equal fake addresses. -/
theorem getFakeIP_collision_after_wrap :
    canonicalName (domainOf 0) ≠ canonicalName (domainOf (2 ^ 32))
    ∧ ((runN (2 ^ 32)).getFakeIP (domainOf (2 ^ 32))).2
        = ((runN 0).getFakeIP (domainOf 0)).2 := by
  have hvalid : ∀ b ∈ start198, b < 256 := by decide
  have hlen : start198.length = 4 := rfl
  have h32 : (256 : Nat) ^ 4 = 2 ^ 32 := by norm_num
  have hwrap : incrementIP^[2 ^ 32] start198 = start198 := by
    have hw := iterate_incrementIP_wrap hvalid
    rw [hlen, h32] at hw
    exact hw
  constructor
  · rw [canonicalName_domainOf, canonicalName_domainOf]
    intro he
    exact absurd (domainOf_inj he) (by norm_num)
  · have hd0 : lookupAssoc (runN 0).mappings (canonicalName (domainOf 0)) = none := rfl
    have hdN : lookupAssoc (runN (2 ^ 32)).mappings
        (canonicalName (domainOf (2 ^ 32))) = none := by
      rw [canonicalName_domainOf, (runN_characterization (2 ^ 32)).1,
        lookupAssoc_none_iff]
      intro p hp
      rcases List.mem_map.mp hp with ⟨j, hj, rfl⟩
      rw [List.mem_reverse, List.mem_range] at hj
      simp only [beq_eq_false_iff_ne, ne_eq]
      intro he
      exact absurd (domainOf_inj he) (by omega)
    obtain ⟨hv0, _, _⟩ := getFakeIP_snd_miss hd0
    obtain ⟨hvN, _, _⟩ := getFakeIP_snd_miss hdN
    rw [hv0, hvN, (runN_characterization (2 ^ 32)).2.2, (runN_characterization 0).2.2,
      hwrap]
    rfl

/-- C5 counterexample: after `2^32 + 1` allocations the reverse-map entry
for the first address has been overwritten by the wrapped allocation, so
`GetDomainForIP (getFakeIP (domainOf 0))` returns the canonical form of
`domainOf (2^32)`, not of `domainOf 0`. -/
theorem getDomainForIP_overwritten_after_wrap :
    canonicalName (domainOf 0) ≠ canonicalName (domainOf (2 ^ 32))
    ∧ ((runN (2 ^ 32 + 1)).getFakeIP (domainOf 0)).1 = runN (2 ^ 32 + 1)
    ∧ ((runN (2 ^ 32 + 1)).getFakeIP (domainOf 0)).2 = start198
    ∧ (runN (2 ^ 32 + 1)).GetDomainForIP start198
        = canonicalName (domainOf (2 ^ 32)) := by
  have hvalid : ∀ b ∈ start198, b < 256 := by decide
  have hlen : start198.length = 4 := rfl
  have h32 : (256 : Nat) ^ 4 = 2 ^ 32 := by norm_num
  have hwrap : incrementIP^[2 ^ 32] start198 = start198 := by
    have hw := iterate_incrementIP_wrap hvalid
    rw [hlen, h32] at hw
    exact hw
  have hlook : lookupAssoc (runN (2 ^ 32 + 1)).mappings (canonicalName (domainOf 0))
      = some start198 := by
    rw [canonicalName_domainOf]
    have hl := lookup_runN (show 0 < 2 ^ 32 + 1 by norm_num)
    simpa using hl
  refine ⟨?_, (getFakeIP_snd_hit hlook).2, (getFakeIP_snd_hit hlook).1, ?_⟩
  · rw [canonicalName_domainOf, canonicalName_domainOf]
    intro he
    exact absurd (domainOf_inj he) (by norm_num)
  · have hr : (runN (2 ^ 32 + 1)).reverseMaps
        = (ipStringChars (incrementIP^[2 ^ 32] start198), domainOf (2 ^ 32))
          :: ((List.range (2 ^ 32)).reverse).map
              (fun j => (ipStringChars (incrementIP^[j] start198), domainOf j)) := by
      rw [(runN_characterization (2 ^ 32 + 1)).2.1, List.range_succ, List.reverse_append,
        List.reverse_singleton, List.singleton_append, List.map_cons]
    unfold FakeDNSServer.GetDomainForIP
    rw [hr, hwrap, lookupAssoc_cons]
    simp [canonicalName_domainOf]

end TorForge
